import Mathlib

/-!
Verification of the fossil-io repository against its specification.

The repository ships two algorithmic components: a binary serialization
buffer (typed fixed-width encode/decode over a growable byte buffer) and a
text sanitizer ("soap").  The implementation files for these two components
are not part of the staged sources (only their test suites
`test_serialize.cpp` and `test_soap.c` are), so the definitions below are
modelled from the specification text, faithful to its words, and checked
against the expected values recorded in the test suites.  The input
validation helpers of `input.c` are translated directly from that source
file.

Machine integers are modelled as `Nat`/`Int` with explicit `% 2^w`
arithmetic; byte buffers are `List Nat`; fallible operations return either
an `Except` value or a status-code pair mirroring the C return conventions.
-/

namespace FossilIO

/-- Modelled from the spec: the error kinds of section 7
(AllocationError, OutOfBoundsError, IOError, InvalidArgumentError). -/
inductive SerializeError where
  | AllocationError
  | OutOfBoundsError
  | IOError
  | InvalidArgumentError
deriving DecidableEq, Repr

/-- Modelled from the spec: the SerializeBuffer data model (section 3):
owned byte storage `data`, `length` bytes written, `capacity` allocated.
`data` models the whole allocated region, so `data.length = capacity` for
well-formed buffers and bytes at indices in `[length, capacity)` are the
uninitialized spare bytes. -/
structure SerializeBuffer where
  data : List Nat
  length : Nat
  capacity : Nat
deriving DecidableEq, Repr

/-- Well-formedness of a buffer: the spec invariant `length <= capacity`
together with the storage actually having `capacity` bytes. -/
def bufWF (b : SerializeBuffer) : Prop :=
  b.length ≤ b.capacity ∧ b.data.length = b.capacity

instance (b : SerializeBuffer) : Decidable (bufWF b) := by
  unfold bufWF; infer_instance

/-- Modelled from the spec: `create(initial_capacity)` allocates storage and
fails with `AllocationError` if `initial_capacity` is 0 or allocation fails.
The allocator collaborator is modelled by the `allocOk` flag. -/
def fossil_io_serialize_create (initial_capacity : Nat) (allocOk : Bool) :
    Except SerializeError SerializeBuffer :=
  if initial_capacity = 0 ∨ allocOk = false then .error .AllocationError
  else .ok ⟨List.replicate initial_capacity 0, 0, initial_capacity⟩

/-- Modelled from the spec: `expand(buffer, additional_bytes)` grows capacity
by at least `additional_bytes` using capacity-doubling or exact-fit growth,
is a no-op if the capacity is already sufficient, and fails with
`AllocationError` (leaving the buffer unchanged) when the allocator fails.
The result pairs the C status (`none` = success) with the buffer state. -/
def fossil_io_serialize_expand (buf : SerializeBuffer) (additional : Nat)
    (allocOk : Bool) : Option SerializeError × SerializeBuffer :=
  if buf.length + additional ≤ buf.capacity then (none, buf)
  else if allocOk then
    let newCap := max (buf.capacity * 2) (buf.length + additional)
    (none, ⟨buf.data ++ List.replicate (newCap - buf.data.length) 0,
            buf.length, newCap⟩)
  else (some .AllocationError, buf)

/-- Modelled from the spec: the common write path of every `write_<type>`:
grow the buffer so the encoded bytes fit, then append them at `length`.
On growth failure the input buffer is returned unchanged (no partial write). -/
def writeBytes (buf : SerializeBuffer) (bs : List Nat) (allocOk : Bool) :
    Option SerializeError × SerializeBuffer :=
  match fossil_io_serialize_expand buf bs.length allocOk with
  | (some e, _) => (some e, buf)
  | (none, b) =>
    (none, ⟨b.data.take b.length ++ bs ++ b.data.drop (b.length + bs.length),
            b.length + bs.length, b.capacity⟩)

/-- Modelled from the spec: fixed-width least-significant-byte-first
encoding of a natural number into `w` bytes. -/
def encodeLE : Nat → Nat → List Nat
  | 0, _ => []
  | w + 1, v => v % 256 :: encodeLE w (v / 256)

/-- Modelled from the spec: least-significant-byte-first decoding. -/
def decodeLE : List Nat → Nat
  | [] => 0
  | b :: rest => b + 256 * decodeLE rest

/-- Twos-complement representative of a signed value in `w` bytes. -/
def toUnsigned (w : Nat) (v : Int) : Nat := (v % ((2 : Int) ^ (8 * w))).toNat

/-- Signed reading of a `w`-byte unsigned representative. -/
def signedOfNat (w : Nat) (n : Nat) : Int :=
  if n < 2 ^ (8 * w - 1) then (n : Int) else (n : Int) - 2 ^ (8 * w)

/-- The byte stored at index `i` of the storage of the buffer. -/
def byteAt (buf : SerializeBuffer) (i : Nat) : Nat := buf.data.getD i 0

/-- The `w` bytes starting at `offset`. -/
def readBytesAt (buf : SerializeBuffer) (offset w : Nat) : List Nat :=
  (List.range w).map (fun i => byteAt buf (offset + i))

/-- Modelled from the spec: the common read path of every `read_<type>`:
a fixed-width read at the cursor, advancing it by the width read, failing
with `OutOfBoundsError` when fewer than `w` bytes remain before `length`
(the cursor is then left unchanged, as the C code leaves `*offset_cursor`
untouched on the error path). -/
def deserializeFixed (buf : SerializeBuffer) (offset w : Nat) :
    Except SerializeError Nat × Nat :=
  if offset + w ≤ buf.length then
    (.ok (decodeLE (readBytesAt buf offset w)), offset + w)
  else (.error .OutOfBoundsError, offset)

/-- Modelled from the spec: `write_u8`. -/
def fossil_io_serialize_u8 (buf : SerializeBuffer) (v : Nat) (allocOk : Bool) :
    Option SerializeError × SerializeBuffer :=
  writeBytes buf (encodeLE 1 v) allocOk

/-- Modelled from the spec: `write_u16`. -/
def fossil_io_serialize_u16 (buf : SerializeBuffer) (v : Nat) (allocOk : Bool) :
    Option SerializeError × SerializeBuffer :=
  writeBytes buf (encodeLE 2 v) allocOk

/-- Modelled from the spec: `write_u32`. -/
def fossil_io_serialize_u32 (buf : SerializeBuffer) (v : Nat) (allocOk : Bool) :
    Option SerializeError × SerializeBuffer :=
  writeBytes buf (encodeLE 4 v) allocOk

/-- Modelled from the spec: `write_u64`. -/
def fossil_io_serialize_u64 (buf : SerializeBuffer) (v : Nat) (allocOk : Bool) :
    Option SerializeError × SerializeBuffer :=
  writeBytes buf (encodeLE 8 v) allocOk

/-- Modelled from the spec: `write_i8` (twos-complement byte). -/
def fossil_io_serialize_i8 (buf : SerializeBuffer) (v : Int) (allocOk : Bool) :
    Option SerializeError × SerializeBuffer :=
  writeBytes buf (encodeLE 1 (toUnsigned 1 v)) allocOk

/-- Modelled from the spec: `write_i16`. -/
def fossil_io_serialize_i16 (buf : SerializeBuffer) (v : Int) (allocOk : Bool) :
    Option SerializeError × SerializeBuffer :=
  writeBytes buf (encodeLE 2 (toUnsigned 2 v)) allocOk

/-- Modelled from the spec: `write_i32`. -/
def fossil_io_serialize_i32 (buf : SerializeBuffer) (v : Int) (allocOk : Bool) :
    Option SerializeError × SerializeBuffer :=
  writeBytes buf (encodeLE 4 (toUnsigned 4 v)) allocOk

/-- Modelled from the spec: `write_i64`. -/
def fossil_io_serialize_i64 (buf : SerializeBuffer) (v : Int) (allocOk : Bool) :
    Option SerializeError × SerializeBuffer :=
  writeBytes buf (encodeLE 8 (toUnsigned 8 v)) allocOk

/-- Modelled from the spec: `write_bool`, one byte, canonical write 1 / 0. -/
def fossil_io_serialize_bool (buf : SerializeBuffer) (v : Bool) (allocOk : Bool) :
    Option SerializeError × SerializeBuffer :=
  writeBytes buf [if v then 1 else 0] allocOk

/-- Modelled from the spec: `write_cstring`, a fixed-width unsigned length
prefix (modelled as 8 bytes, wide enough for any address space) followed by
the raw string bytes. -/
def fossil_io_serialize_cstr (buf : SerializeBuffer) (s : List Nat)
    (allocOk : Bool) : Option SerializeError × SerializeBuffer :=
  writeBytes buf (encodeLE 8 s.length ++ s) allocOk

/-- Modelled from the spec: `read_u8`. -/
def fossil_io_deserialize_u8 (buf : SerializeBuffer) (offset : Nat) :
    Except SerializeError Nat × Nat :=
  deserializeFixed buf offset 1

/-- Modelled from the spec: `read_u16`. -/
def fossil_io_deserialize_u16 (buf : SerializeBuffer) (offset : Nat) :
    Except SerializeError Nat × Nat :=
  deserializeFixed buf offset 2

/-- Modelled from the spec: `read_u32`. -/
def fossil_io_deserialize_u32 (buf : SerializeBuffer) (offset : Nat) :
    Except SerializeError Nat × Nat :=
  deserializeFixed buf offset 4

/-- Modelled from the spec: `read_u64`. -/
def fossil_io_deserialize_u64 (buf : SerializeBuffer) (offset : Nat) :
    Except SerializeError Nat × Nat :=
  deserializeFixed buf offset 8

/-- Modelled from the spec: `read_i8` (signed reading of the byte). -/
def fossil_io_deserialize_i8 (buf : SerializeBuffer) (offset : Nat) :
    Except SerializeError Int × Nat :=
  match deserializeFixed buf offset 1 with
  | (.ok n, o) => (.ok (signedOfNat 1 n), o)
  | (.error e, o) => (.error e, o)

/-- Modelled from the spec: `read_i16`. -/
def fossil_io_deserialize_i16 (buf : SerializeBuffer) (offset : Nat) :
    Except SerializeError Int × Nat :=
  match deserializeFixed buf offset 2 with
  | (.ok n, o) => (.ok (signedOfNat 2 n), o)
  | (.error e, o) => (.error e, o)

/-- Modelled from the spec: `read_i32`. -/
def fossil_io_deserialize_i32 (buf : SerializeBuffer) (offset : Nat) :
    Except SerializeError Int × Nat :=
  match deserializeFixed buf offset 4 with
  | (.ok n, o) => (.ok (signedOfNat 4 n), o)
  | (.error e, o) => (.error e, o)

/-- Modelled from the spec: `read_i64`. -/
def fossil_io_deserialize_i64 (buf : SerializeBuffer) (offset : Nat) :
    Except SerializeError Int × Nat :=
  match deserializeFixed buf offset 8 with
  | (.ok n, o) => (.ok (signedOfNat 8 n), o)
  | (.error e, o) => (.error e, o)

/-- Modelled from the spec: `read_bool`, any nonzero byte reads back true. -/
def fossil_io_deserialize_bool (buf : SerializeBuffer) (offset : Nat) :
    Except SerializeError Bool × Nat :=
  match deserializeFixed buf offset 1 with
  | (.ok n, o) => (.ok (n != 0), o)
  | (.error e, o) => (.error e, o)

/-- Modelled from the spec: `read_cstring` reads the length prefix, then
fails with `OutOfBoundsError` if the declared length exceeds the remaining
buffer bytes or exceeds `out_capacity - 1` (room is reserved for a null
terminator); otherwise it returns that many bytes and the advanced cursor. -/
def fossil_io_deserialize_cstr (buf : SerializeBuffer) (offset : Nat)
    (out_capacity : Nat) : Except SerializeError (List Nat) × Nat :=
  match deserializeFixed buf offset 8 with
  | (.error e, _) => (.error e, offset)
  | (.ok len, o1) =>
    if o1 + len ≤ buf.length ∧ len ≤ out_capacity - 1 then
      (.ok ((List.range len).map (fun i => byteAt buf (o1 + i))), o1 + len)
    else (.error .OutOfBoundsError, offset)

/-- Modelled from the spec: `to_file` writes exactly `length` bytes (not
`capacity`); the file collaborator is modelled by the `ioOk` flag, and the
buffer itself is not touched. -/
def fossil_io_serialize_to_file (buf : SerializeBuffer) (ioOk : Bool) :
    Except SerializeError (List Nat) :=
  if ioOk then .ok (buf.data.take buf.length) else .error .IOError

/-- Modelled from the spec: `from_file` reads the entire file into the
buffer, replacing existing contents and growing capacity as needed; fails
with `IOError` when the file cannot be opened (`none`) and with
`AllocationError` when growth fails, in both cases leaving the buffer
unchanged. -/
def fossil_io_deserialize_from_file (buf : SerializeBuffer)
    (file : Option (List Nat)) (allocOk : Bool) :
    Option SerializeError × SerializeBuffer :=
  match file with
  | none => (some .IOError, buf)
  | some bytes =>
    if bytes.length ≤ buf.capacity then
      (none, ⟨bytes ++ buf.data.drop bytes.length, bytes.length, buf.capacity⟩)
    else if allocOk then
      let newCap := max (buf.capacity * 2) bytes.length
      (none, ⟨bytes ++ List.replicate (newCap - bytes.length) 0,
              bytes.length, newCap⟩)
    else (some .AllocationError, buf)

lemma expand_success (buf : SerializeBuffer) (add : Nat) (allocOk : Bool)
    (hwf : bufWF buf)
    (hok : buf.length + add ≤ buf.capacity ∨ allocOk = true) :
    (fossil_io_serialize_expand buf add allocOk).1 = none ∧
    bufWF (fossil_io_serialize_expand buf add allocOk).2 ∧
    (fossil_io_serialize_expand buf add allocOk).2.length = buf.length ∧
    buf.length + add ≤ (fossil_io_serialize_expand buf add allocOk).2.capacity ∧
    ∀ i, i < buf.length →
      byteAt (fossil_io_serialize_expand buf add allocOk).2 i = byteAt buf i := by
  obtain ⟨hlc, hdl⟩ := hwf
  by_cases hfit : buf.length + add ≤ buf.capacity
  · have hres : fossil_io_serialize_expand buf add allocOk = (none, buf) := by
      simp [fossil_io_serialize_expand, hfit]
    rw [hres]
    exact ⟨rfl, ⟨hlc, hdl⟩, rfl, hfit, fun i _ => rfl⟩
  · rcases hok with h | h
    · exact absurd h hfit
    subst h
    have hres : fossil_io_serialize_expand buf add true =
        (none, ⟨buf.data ++ List.replicate
            (max (buf.capacity * 2) (buf.length + add) - buf.data.length) 0,
          buf.length, max (buf.capacity * 2) (buf.length + add)⟩) := by
      simp [fossil_io_serialize_expand, hfit]
    rw [hres]
    refine ⟨rfl, ⟨?_, ?_⟩, rfl, ?_, ?_⟩
    · show buf.length ≤ max (buf.capacity * 2) (buf.length + add)
      omega
    · show (buf.data ++ List.replicate
          (max (buf.capacity * 2) (buf.length + add) - buf.data.length) 0).length
        = max (buf.capacity * 2) (buf.length + add)
      simp only [List.length_append, List.length_replicate]
      omega
    · show buf.length + add ≤ max (buf.capacity * 2) (buf.length + add)
      omega
    · intro i hi
      show (buf.data ++ List.replicate
          (max (buf.capacity * 2) (buf.length + add) - buf.data.length) 0).getD i 0
        = buf.data.getD i 0
      exact List.getD_append _ _ 0 i (by omega)

lemma expand_fail (buf : SerializeBuffer) (add : Nat)
    (hfit : ¬ buf.length + add ≤ buf.capacity) :
    fossil_io_serialize_expand buf add false = (some .AllocationError, buf) := by
  simp [fossil_io_serialize_expand, hfit]

lemma writeBytes_success (buf : SerializeBuffer) (bs : List Nat) (allocOk : Bool)
    (hwf : bufWF buf)
    (hok : buf.length + bs.length ≤ buf.capacity ∨ allocOk = true) :
    (writeBytes buf bs allocOk).1 = none ∧
    bufWF (writeBytes buf bs allocOk).2 ∧
    (writeBytes buf bs allocOk).2.length = buf.length + bs.length ∧
    (∀ i, i < buf.length →
      byteAt (writeBytes buf bs allocOk).2 i = byteAt buf i) ∧
    (∀ i, i < bs.length →
      byteAt (writeBytes buf bs allocOk).2 (buf.length + i) = bs.getD i 0) := by
  obtain ⟨h1, ⟨hb1, hb2⟩, h3, h4, h5⟩ :=
    expand_success buf bs.length allocOk hwf hok
  have hEE : fossil_io_serialize_expand buf bs.length allocOk =
      (none, (fossil_io_serialize_expand buf bs.length allocOk).2) := by
    rw [← h1]
  set b := (fossil_io_serialize_expand buf bs.length allocOk).2 with hbdef
  have hgoal : writeBytes buf bs allocOk =
      (none, ⟨b.data.take b.length ++ bs ++ b.data.drop (b.length + bs.length),
              b.length + bs.length, b.capacity⟩) := by
    unfold writeBytes
    rw [hEE]
  rw [hgoal]
  have hbd : b.length ≤ b.data.length := by omega
  have htk : (b.data.take b.length).length = b.length := by
    simp [Nat.min_eq_left hbd]
  refine ⟨rfl, ⟨?_, ?_⟩, ?_, ?_, ?_⟩
  · show b.length + bs.length ≤ b.capacity
    omega
  · show ((b.data.take b.length ++ bs) ++ b.data.drop (b.length + bs.length)).length
      = b.capacity
    simp only [List.length_append, List.length_take, List.length_drop]
    omega
  · show b.length + bs.length = buf.length + bs.length
    omega
  · intro i hi
    have hi' : i < b.length := by omega
    show ((b.data.take b.length ++ bs) ++ b.data.drop (b.length + bs.length)).getD i 0
      = buf.data.getD i 0
    rw [List.getD_append _ _ 0 i (by simp only [List.length_append]; omega)]
    rw [List.getD_append _ _ 0 i (by rw [htk]; omega)]
    have hti : (b.data.take b.length).getD i 0 = b.data.getD i 0 := by
      rw [List.getD_eq_getElem _ 0 (by rw [htk]; omega),
          List.getD_eq_getElem _ 0 (by omega)]
      simp [List.getElem_take]
    rw [hti]
    exact h5 i hi
  · intro i hi
    show ((b.data.take b.length ++ bs) ++ b.data.drop (b.length + bs.length)).getD
        (buf.length + i) 0 = bs.getD i 0
    rw [List.getD_append _ _ 0 (buf.length + i)
        (by simp only [List.length_append]; omega)]
    rw [List.getD_append_right _ _ 0 (buf.length + i) (by rw [htk]; omega)]
    rw [htk, h3, Nat.add_sub_cancel_left]

lemma writeBytes_fail (buf : SerializeBuffer) (bs : List Nat)
    (hfit : ¬ buf.length + bs.length ≤ buf.capacity) :
    writeBytes buf bs false = (some .AllocationError, buf) := by
  unfold writeBytes
  rw [expand_fail buf bs.length hfit]

lemma encodeLE_length (w v : Nat) : (encodeLE w v).length = w := by
  induction w generalizing v with
  | zero => simp [encodeLE]
  | succ w ih => simp [encodeLE, ih]

lemma two_pow_8mul (w : Nat) : 2 ^ (8 * w) = 256 ^ w := by
  rw [pow_mul]
  norm_num

lemma decodeLE_encodeLE (w v : Nat) : decodeLE (encodeLE w v) = v % 256 ^ w := by
  induction w generalizing v with
  | zero => simp [encodeLE, decodeLE, Nat.mod_one]
  | succ w ih =>
    simp only [encodeLE, decodeLE, ih]
    have h1 : v % (256 * 256 ^ w) % 256 = v % 256 :=
      Nat.mod_mod_of_dvd v ⟨256 ^ w, rfl⟩
    have h2 : v / 256 % 256 ^ w = v % (256 * 256 ^ w) / 256 :=
      (Nat.mod_mul_right_div_self v 256 (256 ^ w)).symm
    have h3 := Nat.div_add_mod (v % (256 * 256 ^ w)) 256
    have h4 : v % (256 * 256 ^ w) = v % 256 ^ (w + 1) := by
      rw [pow_succ, Nat.mul_comm]
    omega

lemma toUnsigned_lt (w : Nat) (v : Int) : toUnsigned w v < 256 ^ w := by
  unfold toUnsigned
  have hpos : (0 : Int) < 2 ^ (8 * w) := by positivity
  have h1 : 0 ≤ v % 2 ^ (8 * w) := Int.emod_nonneg v (by positivity)
  have h2 : v % 2 ^ (8 * w) < 2 ^ (8 * w) := Int.emod_lt_of_pos v hpos
  have h3 : ((2 ^ (8 * w) : Nat) : Int) = (2 : Int) ^ (8 * w) := by push_cast; ring
  have h4 : (2 : Nat) ^ (8 * w) = 256 ^ w := two_pow_8mul w
  omega

lemma signed_round (w : Nat) (hw : 0 < w) (v : Int)
    (h1 : -(2 ^ (8 * w - 1)) ≤ v) (h2 : v < 2 ^ (8 * w - 1)) :
    signedOfNat w (toUnsigned w v) = v := by
  have hsplit : (2 : Int) ^ (8 * w) = 2 ^ (8 * w - 1) * 2 := by
    rw [← pow_succ]
    congr 1
    omega
  have hpos : (0 : Int) < 2 ^ (8 * w) := by positivity
  have hm0 : 0 ≤ v % 2 ^ (8 * w) := Int.emod_nonneg v (by positivity)
  have hmlt : v % 2 ^ (8 * w) < 2 ^ (8 * w) := Int.emod_lt_of_pos v hpos
  have hv : v % 2 ^ (8 * w) = v ∨ v % 2 ^ (8 * w) = v + 2 ^ (8 * w) := by
    rcases le_or_lt 0 v with h | h
    · left
      exact Int.emod_eq_of_lt h (by omega)
    · right
      have heq : (v + 2 ^ (8 * w)) % 2 ^ (8 * w) = v % 2 ^ (8 * w) :=
        Int.add_mul_emod_self_left (a := v) (b := (2 : Int) ^ (8 * w)) (c := 1)
          |> fun h => by rw [mul_one] at h; exact h
      have hrange : (v + 2 ^ (8 * w)) % 2 ^ (8 * w) = v + 2 ^ (8 * w) :=
        Int.emod_eq_of_lt (by omega) (by omega)
      omega
  have hcast1 : ((2 ^ (8 * w - 1) : Nat) : Int) = (2 : Int) ^ (8 * w - 1) := by
    push_cast; ring
  have hcast2 : ((2 ^ (8 * w) : Nat) : Int) = (2 : Int) ^ (8 * w) := by
    push_cast; ring
  unfold signedOfNat toUnsigned
  rcases hv with hv | hv
  · rw [hv]
    rw [if_pos (by omega)]
    omega
  · rw [hv]
    rw [if_neg (by omega)]
    omega

lemma deserializeFixed_oob (buf : SerializeBuffer) (offset w : Nat)
    (h : buf.length < offset + w) :
    deserializeFixed buf offset w = (.error .OutOfBoundsError, offset) := by
  unfold deserializeFixed
  rw [if_neg (by omega)]

lemma deserializeFixed_in (buf : SerializeBuffer) (offset w : Nat)
    (h : offset + w ≤ buf.length) :
    deserializeFixed buf offset w
      = (.ok (decodeLE (readBytesAt buf offset w)), offset + w) := by
  unfold deserializeFixed
  rw [if_pos h]

lemma readBytesAt_of_bytes (buf : SerializeBuffer) (offset : Nat) (bs : List Nat)
    (h : ∀ i, i < bs.length → byteAt buf (offset + i) = bs.getD i 0) :
    readBytesAt buf offset bs.length = bs := by
  apply List.ext_getElem
  · simp [readBytesAt]
  · intro i h1 h2
    simp only [readBytesAt, List.getElem_map, List.getElem_range]
    rw [h i h2]
    exact (List.getD_eq_getElem bs 0 h2)

lemma write_then_read (buf : SerializeBuffer) (hwf : bufWF buf) (bs : List Nat) :
    deserializeFixed (writeBytes buf bs true).2 buf.length bs.length
      = (.ok (decodeLE bs), buf.length + bs.length) := by
  obtain ⟨h1, hwf2, hlen, hpres, hat⟩ :=
    writeBytes_success buf bs true hwf (Or.inr rfl)
  rw [deserializeFixed_in _ _ _ (by omega)]
  rw [readBytesAt_of_bytes _ _ _ hat]

lemma roundtrip_fixed (buf : SerializeBuffer) (hwf : bufWF buf) (w n : Nat)
    (hn : n < 256 ^ w) :
    deserializeFixed (writeBytes buf (encodeLE w n) true).2 buf.length w
      = (.ok n, buf.length + w) := by
  have h := write_then_read buf hwf (encodeLE w n)
  rw [encodeLE_length] at h
  rw [h, decodeLE_encodeLE, Nat.mod_eq_of_lt hn]

lemma roundtrip_byte (buf : SerializeBuffer) (hwf : bufWF buf) (x : Nat) :
    deserializeFixed (writeBytes buf [x] true).2 buf.length 1
      = (.ok x, buf.length + 1) := by
  have h := write_then_read buf hwf [x]
  have hl : ([x] : List Nat).length = 1 := rfl
  rw [hl] at h
  rw [h]
  have hd : decodeLE [x] = x := by simp [decodeLE]
  rw [hd]

/-- C1: for every integer type among signed/unsigned 8-, 16-, 32- and
64-bit and for the boolean type, writing a value of that type into a
serialize buffer and then reading at the offset where it was written
returns exactly that value, over the whole range of the type (boundary
values included). -/
theorem serialize_roundtrip_all_types (buf : SerializeBuffer) (hwf : bufWF buf) :
    (∀ v : Nat, v < 2 ^ 8 →
      fossil_io_deserialize_u8 (fossil_io_serialize_u8 buf v true).2 buf.length
        = (.ok v, buf.length + 1)) ∧
    (∀ v : Nat, v < 2 ^ 16 →
      fossil_io_deserialize_u16 (fossil_io_serialize_u16 buf v true).2 buf.length
        = (.ok v, buf.length + 2)) ∧
    (∀ v : Nat, v < 2 ^ 32 →
      fossil_io_deserialize_u32 (fossil_io_serialize_u32 buf v true).2 buf.length
        = (.ok v, buf.length + 4)) ∧
    (∀ v : Nat, v < 2 ^ 64 →
      fossil_io_deserialize_u64 (fossil_io_serialize_u64 buf v true).2 buf.length
        = (.ok v, buf.length + 8)) ∧
    (∀ v : Int, -(2 ^ 7) ≤ v → v < 2 ^ 7 →
      fossil_io_deserialize_i8 (fossil_io_serialize_i8 buf v true).2 buf.length
        = (.ok v, buf.length + 1)) ∧
    (∀ v : Int, -(2 ^ 15) ≤ v → v < 2 ^ 15 →
      fossil_io_deserialize_i16 (fossil_io_serialize_i16 buf v true).2 buf.length
        = (.ok v, buf.length + 2)) ∧
    (∀ v : Int, -(2 ^ 31) ≤ v → v < 2 ^ 31 →
      fossil_io_deserialize_i32 (fossil_io_serialize_i32 buf v true).2 buf.length
        = (.ok v, buf.length + 4)) ∧
    (∀ v : Int, -(2 ^ 63) ≤ v → v < 2 ^ 63 →
      fossil_io_deserialize_i64 (fossil_io_serialize_i64 buf v true).2 buf.length
        = (.ok v, buf.length + 8)) ∧
    (∀ b : Bool,
      fossil_io_deserialize_bool (fossil_io_serialize_bool buf b true).2 buf.length
        = (.ok b, buf.length + 1)) := by
  refine ⟨?_, ?_, ?_, ?_, ?_, ?_, ?_, ?_, ?_⟩
  · intro v hv
    exact roundtrip_fixed buf hwf 1 v (by norm_num at hv ⊢; omega)
  · intro v hv
    exact roundtrip_fixed buf hwf 2 v (by norm_num at hv ⊢; omega)
  · intro v hv
    exact roundtrip_fixed buf hwf 4 v (by norm_num at hv ⊢; omega)
  · intro v hv
    exact roundtrip_fixed buf hwf 8 v (by norm_num at hv ⊢; omega)
  · intro v h1 h2
    unfold fossil_io_serialize_i8 fossil_io_deserialize_i8
    rw [roundtrip_fixed buf hwf 1 (toUnsigned 1 v) (toUnsigned_lt 1 v)]
    show (Except.ok (signedOfNat 1 (toUnsigned 1 v)), buf.length + 1)
      = (Except.ok v, buf.length + 1)
    rw [signed_round 1 (by norm_num) v (by norm_num at h1 ⊢; omega)
      (by norm_num at h2 ⊢; omega)]
  · intro v h1 h2
    unfold fossil_io_serialize_i16 fossil_io_deserialize_i16
    rw [roundtrip_fixed buf hwf 2 (toUnsigned 2 v) (toUnsigned_lt 2 v)]
    show (Except.ok (signedOfNat 2 (toUnsigned 2 v)), buf.length + 2)
      = (Except.ok v, buf.length + 2)
    rw [signed_round 2 (by norm_num) v (by norm_num at h1 ⊢; omega)
      (by norm_num at h2 ⊢; omega)]
  · intro v h1 h2
    unfold fossil_io_serialize_i32 fossil_io_deserialize_i32
    rw [roundtrip_fixed buf hwf 4 (toUnsigned 4 v) (toUnsigned_lt 4 v)]
    show (Except.ok (signedOfNat 4 (toUnsigned 4 v)), buf.length + 4)
      = (Except.ok v, buf.length + 4)
    rw [signed_round 4 (by norm_num) v (by norm_num at h1 ⊢; omega)
      (by norm_num at h2 ⊢; omega)]
  · intro v h1 h2
    unfold fossil_io_serialize_i64 fossil_io_deserialize_i64
    rw [roundtrip_fixed buf hwf 8 (toUnsigned 8 v) (toUnsigned_lt 8 v)]
    show (Except.ok (signedOfNat 8 (toUnsigned 8 v)), buf.length + 8)
      = (Except.ok v, buf.length + 8)
    rw [signed_round 8 (by norm_num) v (by norm_num at h1 ⊢; omega)
      (by norm_num at h2 ⊢; omega)]
  · intro b
    unfold fossil_io_serialize_bool fossil_io_deserialize_bool
    rw [roundtrip_byte buf hwf (if b then 1 else 0)]
    cases b <;> rfl

/-- Concrete check of the round-trip theorem: INT64_MIN round-trips through
an 8-byte buffer. -/
theorem serialize_roundtrip_all_types_check :
    fossil_io_deserialize_i64
      (fossil_io_serialize_i64 ⟨List.replicate 8 0, 0, 8⟩ (-(2 ^ 63)) true).2 0
      = (.ok (-(2 ^ 63)), 8) :=
  (serialize_roundtrip_all_types ⟨List.replicate 8 0, 0, 8⟩
    (by decide)).2.2.2.2.2.2.2.1 (-(2 ^ 63)) (le_refl _) (by norm_num)

/-- A fixed-width read of `w` bytes fails with `OutOfBoundsError` and leaves
the cursor of the caller unchanged whenever fewer than `w` bytes remain before
`length`.  (In this embedding a read never returns a modified buffer at all,
mirroring that the C read paths never write to the buffer.) -/
def readOOBUnchanged {α : Type}
    (read : SerializeBuffer → Nat → Except SerializeError α × Nat)
    (w : Nat) : Prop :=
  ∀ buf offset, buf.length < offset + w →
    read buf offset = (.error .OutOfBoundsError, offset)

/-- A read depends only on the first `length` bytes of the storage: two
buffers of the same `length` agreeing below `length` (whatever their spare
capacity holds) are read identically, so no byte at or past `length` is
ever accessed. -/
def readWithinLength {α : Type}
    (read : SerializeBuffer → Nat → Except SerializeError α × Nat) : Prop :=
  ∀ buf buf2 offset, buf.length = buf2.length →
    (∀ i, i < buf.length → byteAt buf i = byteAt buf2 i) →
    read buf offset = read buf2 offset

lemma deserializeFixed_agree (buf buf2 : SerializeBuffer) (offset w : Nat)
    (hlen : buf.length = buf2.length)
    (hbytes : ∀ i, i < buf.length → byteAt buf i = byteAt buf2 i) :
    deserializeFixed buf offset w = deserializeFixed buf2 offset w := by
  unfold deserializeFixed
  rw [← hlen]
  by_cases h : offset + w ≤ buf.length
  · rw [if_pos h, if_pos h]
    have hr : readBytesAt buf offset w = readBytesAt buf2 offset w := by
      unfold readBytesAt
      apply List.map_congr_left
      intro i hi
      have : i < w := List.mem_range.mp hi
      exact hbytes (offset + i) (by omega)
    rw [hr]
  · rw [if_neg h, if_neg h]

lemma fixed_oob {α : Type} (post : Nat → α) (w : Nat) :
    readOOBUnchanged
      (fun buf offset =>
        match deserializeFixed buf offset w with
        | (.ok n, o) => (.ok (post n), o)
        | (.error e, o) => (.error e, o)) w := by
  intro buf offset h
  dsimp only
  rw [deserializeFixed_oob buf offset w h]

lemma fixed_agree {α : Type} (post : Nat → α) (w : Nat) :
    readWithinLength
      (fun buf offset =>
        match deserializeFixed buf offset w with
        | (.ok n, o) => (.ok (post n), o)
        | (.error e, o) => (.error e, o)) := by
  intro buf buf2 offset hlen hbytes
  dsimp only
  rw [deserializeFixed_agree buf buf2 offset w hlen hbytes]

lemma plain_oob (w : Nat) :
    readOOBUnchanged (fun buf offset => deserializeFixed buf offset w) w :=
  fun buf offset h => deserializeFixed_oob buf offset w h

lemma plain_agree (w : Nat) :
    readWithinLength (fun buf offset => deserializeFixed buf offset w) :=
  fun buf buf2 offset hlen hbytes =>
    deserializeFixed_agree buf buf2 offset w hlen hbytes

lemma cstr_agree (cap : Nat) :
    readWithinLength (fun buf offset => fossil_io_deserialize_cstr buf offset cap) := by
  intro buf buf2 offset hlen hbytes
  dsimp only
  unfold fossil_io_deserialize_cstr
  rw [deserializeFixed_agree buf buf2 offset 8 hlen hbytes]
  rcases hE : deserializeFixed buf2 offset 8 with ⟨res, o1⟩
  cases res with
  | error e => rfl
  | ok len =>
    show (if o1 + len ≤ buf.length ∧ len ≤ cap - 1 then _ else _)
      = (if o1 + len ≤ buf2.length ∧ len ≤ cap - 1 then _ else _)
    by_cases hc : o1 + len ≤ buf2.length ∧ len ≤ cap - 1
    · rw [if_pos (by omega), if_pos hc]
      have hm : ((List.range len).map (fun i => byteAt buf (o1 + i)))
          = (List.range len).map (fun i => byteAt buf2 (o1 + i)) := by
        apply List.map_congr_left
        intro i hi
        have : i < len := List.mem_range.mp hi
        exact hbytes (o1 + i) (by omega)
      rw [hm]
    · rw [if_neg (by omega), if_neg hc]

/-- C3: for every fixed-width typed read, when fewer than the width of the type
in bytes remains between the cursor and `length`, the read returns
`OutOfBoundsError` with the cursor unchanged; and every read (the
length-prefixed string read included) depends only on the bytes below
`length`, never accessing storage at or past `length` even when `capacity`
holds spare bytes.  The reads of the embedding take the buffer immutably and
return no buffer, so the buffer itself is unchanged by construction. -/
theorem deserialize_bounds_checked :
    (readOOBUnchanged fossil_io_deserialize_u8 1 ∧
      readWithinLength fossil_io_deserialize_u8) ∧
    (readOOBUnchanged fossil_io_deserialize_u16 2 ∧
      readWithinLength fossil_io_deserialize_u16) ∧
    (readOOBUnchanged fossil_io_deserialize_u32 4 ∧
      readWithinLength fossil_io_deserialize_u32) ∧
    (readOOBUnchanged fossil_io_deserialize_u64 8 ∧
      readWithinLength fossil_io_deserialize_u64) ∧
    (readOOBUnchanged fossil_io_deserialize_i8 1 ∧
      readWithinLength fossil_io_deserialize_i8) ∧
    (readOOBUnchanged fossil_io_deserialize_i16 2 ∧
      readWithinLength fossil_io_deserialize_i16) ∧
    (readOOBUnchanged fossil_io_deserialize_i32 4 ∧
      readWithinLength fossil_io_deserialize_i32) ∧
    (readOOBUnchanged fossil_io_deserialize_i64 8 ∧
      readWithinLength fossil_io_deserialize_i64) ∧
    (readOOBUnchanged fossil_io_deserialize_bool 1 ∧
      readWithinLength fossil_io_deserialize_bool) ∧
    (∀ cap : Nat,
      readWithinLength (fun buf offset =>
        fossil_io_deserialize_cstr buf offset cap)) := by
  refine ⟨⟨plain_oob 1, plain_agree 1⟩, ⟨plain_oob 2, plain_agree 2⟩,
    ⟨plain_oob 4, plain_agree 4⟩, ⟨plain_oob 8, plain_agree 8⟩,
    ⟨fixed_oob (signedOfNat 1) 1, fixed_agree (signedOfNat 1) 1⟩,
    ⟨fixed_oob (signedOfNat 2) 2, fixed_agree (signedOfNat 2) 2⟩,
    ⟨fixed_oob (signedOfNat 4) 4, fixed_agree (signedOfNat 4) 4⟩,
    ⟨fixed_oob (signedOfNat 8) 8, fixed_agree (signedOfNat 8) 8⟩,
    ⟨fixed_oob (fun n => n != 0) 1, fixed_agree (fun n => n != 0) 1⟩,
    fun cap => cstr_agree cap⟩

/-- All-or-nothing behavior of a write: either the full encoding `enc` is
appended (the length grows by exactly `enc.length`, the old bytes are kept
and the new bytes appear at the old end) or the call returns
`AllocationError` and the buffer is returned exactly as it was. -/
def writeAllOrNothing
    (write : SerializeBuffer → Bool → Option SerializeError × SerializeBuffer)
    (enc : List Nat) (buf : SerializeBuffer) : Prop :=
  ∀ allocOk,
    ((write buf allocOk).1 = none ∧
     (write buf allocOk).2.length = buf.length + enc.length ∧
     (∀ i, i < buf.length → byteAt (write buf allocOk).2 i = byteAt buf i) ∧
     (∀ i, i < enc.length →
        byteAt (write buf allocOk).2 (buf.length + i) = enc.getD i 0)) ∨
    ((write buf allocOk).1 = some SerializeError.AllocationError ∧
     (write buf allocOk).2 = buf)

lemma writeBytes_allOrNothing (buf : SerializeBuffer) (bs : List Nat)
    (hwf : bufWF buf) :
    writeAllOrNothing (fun b ok => writeBytes b bs ok) bs buf := by
  intro allocOk
  dsimp only
  by_cases hfit : buf.length + bs.length ≤ buf.capacity
  · left
    obtain ⟨h1, _, h3, h4, h5⟩ :=
      writeBytes_success buf bs allocOk hwf (Or.inl hfit)
    exact ⟨h1, h3, h4, h5⟩
  · cases allocOk with
    | false =>
      right
      rw [writeBytes_fail buf bs hfit]
      exact ⟨rfl, rfl⟩
    | true =>
      left
      obtain ⟨h1, _, h3, h4, h5⟩ :=
        writeBytes_success buf bs true hwf (Or.inr rfl)
      exact ⟨h1, h3, h4, h5⟩

/-- C4: every write operation either appends its full encoded value (the
length grows by exactly the encoded size and every encoded byte lands in
place) or, when buffer growth fails, returns `AllocationError` with the
buffer contents and length exactly unchanged; no partial multi-byte write
is ever committed. -/
theorem serialize_write_all_or_nothing (buf : SerializeBuffer)
    (hwf : bufWF buf) :
    (∀ v : Nat, writeAllOrNothing (fun b ok => fossil_io_serialize_u8 b v ok)
      (encodeLE 1 v) buf) ∧
    (∀ v : Nat, writeAllOrNothing (fun b ok => fossil_io_serialize_u16 b v ok)
      (encodeLE 2 v) buf) ∧
    (∀ v : Nat, writeAllOrNothing (fun b ok => fossil_io_serialize_u32 b v ok)
      (encodeLE 4 v) buf) ∧
    (∀ v : Nat, writeAllOrNothing (fun b ok => fossil_io_serialize_u64 b v ok)
      (encodeLE 8 v) buf) ∧
    (∀ v : Int, writeAllOrNothing (fun b ok => fossil_io_serialize_i8 b v ok)
      (encodeLE 1 (toUnsigned 1 v)) buf) ∧
    (∀ v : Int, writeAllOrNothing (fun b ok => fossil_io_serialize_i16 b v ok)
      (encodeLE 2 (toUnsigned 2 v)) buf) ∧
    (∀ v : Int, writeAllOrNothing (fun b ok => fossil_io_serialize_i32 b v ok)
      (encodeLE 4 (toUnsigned 4 v)) buf) ∧
    (∀ v : Int, writeAllOrNothing (fun b ok => fossil_io_serialize_i64 b v ok)
      (encodeLE 8 (toUnsigned 8 v)) buf) ∧
    (∀ v : Bool, writeAllOrNothing (fun b ok => fossil_io_serialize_bool b v ok)
      [if v then 1 else 0] buf) ∧
    (∀ s : List Nat,
      writeAllOrNothing (fun b ok => fossil_io_serialize_cstr b s ok)
        (encodeLE 8 s.length ++ s) buf) := by
  refine ⟨fun v => ?_, fun v => ?_, fun v => ?_, fun v => ?_, fun v => ?_,
    fun v => ?_, fun v => ?_, fun v => ?_, fun v => ?_, fun s => ?_⟩
  · exact writeBytes_allOrNothing buf (encodeLE 1 v) hwf
  · exact writeBytes_allOrNothing buf (encodeLE 2 v) hwf
  · exact writeBytes_allOrNothing buf (encodeLE 4 v) hwf
  · exact writeBytes_allOrNothing buf (encodeLE 8 v) hwf
  · exact writeBytes_allOrNothing buf (encodeLE 1 (toUnsigned 1 v)) hwf
  · exact writeBytes_allOrNothing buf (encodeLE 2 (toUnsigned 2 v)) hwf
  · exact writeBytes_allOrNothing buf (encodeLE 4 (toUnsigned 4 v)) hwf
  · exact writeBytes_allOrNothing buf (encodeLE 8 (toUnsigned 8 v)) hwf
  · exact writeBytes_allOrNothing buf [if v then 1 else 0] hwf
  · exact writeBytes_allOrNothing buf (encodeLE 8 s.length ++ s) hwf

/-- Concrete check of the all-or-nothing theorem: on a zero-capacity buffer
with a failing allocator, a u8 write reports `AllocationError` and leaves
the buffer untouched. -/
theorem serialize_write_all_or_nothing_check :
    (fossil_io_serialize_u8 ⟨[], 0, 0⟩ 7 false).1
        = some SerializeError.AllocationError ∧
      (fossil_io_serialize_u8 ⟨[], 0, 0⟩ 7 false).2 = ⟨[], 0, 0⟩ := by
  have h := (serialize_write_all_or_nothing ⟨[], 0, 0⟩ (by decide)).1 7 false
  rcases h with ⟨h1, _⟩ | h
  · exact absurd h1 (by decide)
  · exact h

lemma expand_inv (buf : SerializeBuffer) (add : Nat) (ok : Bool)
    (h : buf.length ≤ buf.capacity) :
    (fossil_io_serialize_expand buf add ok).2.length ≤
      (fossil_io_serialize_expand buf add ok).2.capacity := by
  unfold fossil_io_serialize_expand
  by_cases hfit : buf.length + add ≤ buf.capacity
  · rw [if_pos hfit]
    exact h
  · rw [if_neg hfit]
    cases ok with
    | true =>
      show buf.length ≤ max (buf.capacity * 2) (buf.length + add)
      omega
    | false =>
      exact h

lemma expand_none_post (buf : SerializeBuffer) (add : Nat) (ok : Bool)
    (b : SerializeBuffer)
    (hE : fossil_io_serialize_expand buf add ok = (none, b)) :
    b.length = buf.length ∧ buf.length + add ≤ b.capacity := by
  unfold fossil_io_serialize_expand at hE
  by_cases hfit : buf.length + add ≤ buf.capacity
  · rw [if_pos hfit] at hE
    simp only [Prod.mk.injEq] at hE
    rw [← hE.2]
    exact ⟨rfl, hfit⟩
  · rw [if_neg hfit] at hE
    cases ok with
    | false => simp at hE
    | true =>
      simp only [if_true] at hE
      simp only [Prod.mk.injEq] at hE
      rw [← hE.2]
      show buf.length = buf.length ∧ buf.length + add ≤
        max (buf.capacity * 2) (buf.length + add)
      omega

lemma writeBytes_inv (buf : SerializeBuffer) (bs : List Nat) (ok : Bool)
    (h : buf.length ≤ buf.capacity) :
    (writeBytes buf bs ok).2.length ≤ (writeBytes buf bs ok).2.capacity := by
  unfold writeBytes
  rcases hE : fossil_io_serialize_expand buf bs.length ok with ⟨st, b⟩
  cases st with
  | some e => exact h
  | none =>
    obtain ⟨h1, h2⟩ := expand_none_post buf bs.length ok b hE
    show b.length + bs.length ≤ b.capacity
    omega

/-- C5: every serializer operation that yields a buffer preserves the
invariant `length <= capacity`: creation establishes it, `expand` and every
write (which grows capacity as needed before writing) preserve it, and
`from_file` re-establishes it for the loaded contents.  Reads and `to_file`
take the buffer immutably in this embedding and cannot disturb it. -/
theorem serialize_length_le_capacity :
    (∀ ic ok b, fossil_io_serialize_create ic ok = .ok b →
      b.length ≤ b.capacity) ∧
    (∀ buf add ok, buf.length ≤ buf.capacity →
      (fossil_io_serialize_expand buf add ok).2.length ≤
        (fossil_io_serialize_expand buf add ok).2.capacity) ∧
    (∀ buf (v : Nat) ok, buf.length ≤ buf.capacity →
      (fossil_io_serialize_u8 buf v ok).2.length ≤
        (fossil_io_serialize_u8 buf v ok).2.capacity) ∧
    (∀ buf (v : Nat) ok, buf.length ≤ buf.capacity →
      (fossil_io_serialize_u16 buf v ok).2.length ≤
        (fossil_io_serialize_u16 buf v ok).2.capacity) ∧
    (∀ buf (v : Nat) ok, buf.length ≤ buf.capacity →
      (fossil_io_serialize_u32 buf v ok).2.length ≤
        (fossil_io_serialize_u32 buf v ok).2.capacity) ∧
    (∀ buf (v : Nat) ok, buf.length ≤ buf.capacity →
      (fossil_io_serialize_u64 buf v ok).2.length ≤
        (fossil_io_serialize_u64 buf v ok).2.capacity) ∧
    (∀ buf (v : Int) ok, buf.length ≤ buf.capacity →
      (fossil_io_serialize_i8 buf v ok).2.length ≤
        (fossil_io_serialize_i8 buf v ok).2.capacity) ∧
    (∀ buf (v : Int) ok, buf.length ≤ buf.capacity →
      (fossil_io_serialize_i16 buf v ok).2.length ≤
        (fossil_io_serialize_i16 buf v ok).2.capacity) ∧
    (∀ buf (v : Int) ok, buf.length ≤ buf.capacity →
      (fossil_io_serialize_i32 buf v ok).2.length ≤
        (fossil_io_serialize_i32 buf v ok).2.capacity) ∧
    (∀ buf (v : Int) ok, buf.length ≤ buf.capacity →
      (fossil_io_serialize_i64 buf v ok).2.length ≤
        (fossil_io_serialize_i64 buf v ok).2.capacity) ∧
    (∀ buf (v : Bool) ok, buf.length ≤ buf.capacity →
      (fossil_io_serialize_bool buf v ok).2.length ≤
        (fossil_io_serialize_bool buf v ok).2.capacity) ∧
    (∀ buf (s : List Nat) ok, buf.length ≤ buf.capacity →
      (fossil_io_serialize_cstr buf s ok).2.length ≤
        (fossil_io_serialize_cstr buf s ok).2.capacity) ∧
    (∀ buf file ok, buf.length ≤ buf.capacity →
      (fossil_io_deserialize_from_file buf file ok).2.length ≤
        (fossil_io_deserialize_from_file buf file ok).2.capacity) := by
  refine ⟨?_, fun buf add ok h => expand_inv buf add ok h,
    fun buf v ok h => writeBytes_inv buf _ ok h,
    fun buf v ok h => writeBytes_inv buf _ ok h,
    fun buf v ok h => writeBytes_inv buf _ ok h,
    fun buf v ok h => writeBytes_inv buf _ ok h,
    fun buf v ok h => writeBytes_inv buf _ ok h,
    fun buf v ok h => writeBytes_inv buf _ ok h,
    fun buf v ok h => writeBytes_inv buf _ ok h,
    fun buf v ok h => writeBytes_inv buf _ ok h,
    fun buf v ok h => writeBytes_inv buf _ ok h,
    fun buf s ok h => writeBytes_inv buf _ ok h, ?_⟩
  · intro ic ok b hc
    unfold fossil_io_serialize_create at hc
    by_cases hz : ic = 0 ∨ ok = false
    · rw [if_pos hz] at hc
      simp at hc
    · rw [if_neg hz] at hc
      simp only [Except.ok.injEq] at hc
      rw [← hc]
      show (0 : Nat) ≤ ic
      omega
  · intro buf file ok h
    unfold fossil_io_deserialize_from_file
    cases file with
    | none => exact h
    | some bytes =>
      dsimp only
      by_cases hfit : bytes.length ≤ buf.capacity
      · rw [if_pos hfit]
        exact hfit
      · rw [if_neg hfit]
        cases ok with
        | true =>
          show bytes.length ≤ max (buf.capacity * 2) bytes.length
          omega
        | false => exact h

/-- C2: a length-prefixed string round-trips exactly through
`write_cstring` / `read_cstring` whenever its byte length fits within
`out_capacity - 1`; when the length exceeds `out_capacity - 1` the read
fails with `OutOfBoundsError` instead.  The length prefix is 8 bytes, so
the string length must fit the prefix width. -/
theorem cstr_roundtrip (buf : SerializeBuffer) (hwf : bufWF buf)
    (s : List Nat) (hlen : s.length < 2 ^ 64) (out_capacity : Nat) :
    (s.length ≤ out_capacity - 1 →
      fossil_io_deserialize_cstr (fossil_io_serialize_cstr buf s true).2
          buf.length out_capacity
        = (.ok s, buf.length + 8 + s.length)) ∧
    (out_capacity - 1 < s.length →
      (fossil_io_deserialize_cstr (fossil_io_serialize_cstr buf s true).2
          buf.length out_capacity).1 = .error .OutOfBoundsError) := by
  obtain ⟨h1, hwf2, hlenW, hpres, hat⟩ :=
    writeBytes_success buf (encodeLE 8 s.length ++ s) true hwf (Or.inr rfl)
  have hbsl : (encodeLE 8 s.length ++ s).length = 8 + s.length := by
    simp [encodeLE_length]
  rw [hbsl] at hlenW
  have hsl : s.length < 256 ^ 8 := by
    have h88 : (2 : Nat) ^ 64 = 256 ^ 8 := by norm_num
    omega
  have hfix : deserializeFixed (writeBytes buf (encodeLE 8 s.length ++ s) true).2
      buf.length 8 = (.ok s.length, buf.length + 8) := by
    rw [deserializeFixed_in _ _ _ (by omega)]
    have henc : ∀ i, i < (encodeLE 8 s.length).length →
        byteAt (writeBytes buf (encodeLE 8 s.length ++ s) true).2
          (buf.length + i) = (encodeLE 8 s.length).getD i 0 := by
      intro i hi
      rw [encodeLE_length] at hi
      have := hat i (by rw [hbsl]; omega)
      rw [this]
      exact List.getD_append _ _ 0 i (by rw [encodeLE_length]; omega)
    have hrb := readBytesAt_of_bytes _ buf.length (encodeLE 8 s.length) henc
    rw [encodeLE_length] at hrb
    rw [hrb, decodeLE_encodeLE, Nat.mod_eq_of_lt hsl]
  have hread : readBytesAt (writeBytes buf (encodeLE 8 s.length ++ s) true).2
      (buf.length + 8) s.length = s := by
    apply readBytesAt_of_bytes
    intro i hi
    have hidx : buf.length + 8 + i = buf.length + (8 + i) := by omega
    rw [hidx]
    have := hat (8 + i) (by rw [hbsl]; omega)
    rw [this]
    rw [List.getD_append_right _ _ 0 (8 + i) (by rw [encodeLE_length]; omega)]
    rw [encodeLE_length]
    congr 1
    omega
  unfold readBytesAt at hread
  constructor
  · intro hcap
    unfold fossil_io_serialize_cstr fossil_io_deserialize_cstr
    rw [hfix]
    dsimp only
    rw [if_pos (⟨by omega, hcap⟩ :
      buf.length + 8 + s.length ≤
          (writeBytes buf (encodeLE 8 s.length ++ s) true).2.length ∧
        s.length ≤ out_capacity - 1)]
    rw [hread]
  · intro hcap
    unfold fossil_io_serialize_cstr fossil_io_deserialize_cstr
    rw [hfix]
    dsimp only
    rw [if_neg (show ¬ (buf.length + 8 + s.length ≤
          (writeBytes buf (encodeLE 8 s.length ++ s) true).2.length ∧
        s.length ≤ out_capacity - 1) by omega)]

/-- Concrete check of the string round-trip: a two-byte string written into
an empty buffer is recovered exactly with room to spare. -/
theorem cstr_roundtrip_check :
    fossil_io_deserialize_cstr
      (fossil_io_serialize_cstr ⟨[], 0, 0⟩ [104, 105] true).2 0 16
      = (.ok [104, 105], 10) :=
  (cstr_roundtrip ⟨[], 0, 0⟩ (by decide) [104, 105] (by norm_num) 16).1
    (by norm_num)

/-- Whitespace per the tokenization given in the spec (space, tab, newline, carriage
return). -/
def isWs (c : Char) : Bool := c == ' ' || c == '\t' || c == '\n' || c == '\r'

/-- Modelled from the spec: the LeetspeakMap of section 3 (`0`→`o`, `1`→`i`,
`3`→`e`, `4`→`a`); every other character stands for itself. -/
def leetChar (c : Char) : Char :=
  if c = '0' then 'o' else if c = '1' then 'i'
  else if c = '3' then 'e' else if c = '4' then 'a' else c

/-- Character-by-character leetspeak conversion of a token. -/
def leetConvert (t : List Char) : List Char := t.map leetChar

/-- ASCII lowercasing, as C tolower on the ASCII range. -/
def asciiLower (c : Char) : Char :=
  if 'A' ≤ c ∧ c ≤ 'Z' then Char.ofNat (c.toNat + 32) else c

def lowerList (t : List Char) : List Char := t.map asciiLower

def asciiIsUpper (c : Char) : Bool := decide ('A' ≤ c ∧ c ≤ 'Z')

/-- Alphanumeric ASCII characters form the core of a token; everything else is
punctuation for the leading/trailing strip. -/
def isWordChar (c : Char) : Bool :=
  decide (('a' ≤ c ∧ c ≤ 'z') ∨ ('A' ≤ c ∧ c ≤ 'Z') ∨ ('0' ≤ c ∧ c ≤ '9'))

/-- The leading punctuation of a token. -/
def leadPunct (t : List Char) : List Char :=
  t.takeWhile (fun c => ! isWordChar c)

/-- The core of a token: what is left after stripping leading and trailing
punctuation (interior punctuation, such as the hyphen of rot-brain, is
kept). -/
def stripCore (t : List Char) : List Char :=
  ((t.dropWhile (fun c => ! isWordChar c)).reverse.dropWhile
    (fun c => ! isWordChar c)).reverse

/-- The trailing punctuation of a token. -/
def trailPunct (t : List Char) : List Char :=
  ((t.dropWhile (fun c => ! isWordChar c)).reverse.takeWhile
    (fun c => ! isWordChar c)).reverse

/-- First-match lookup in a replacement table. -/
def tableLookup : List (List Char × List Char) → List Char → Option (List Char)
  | [], _ => none
  | (k, v) :: rest, key => if k = key then some v else tableLookup rest key

/-- The normalized lookup key of a token: leetspeak-convert, strip the
leading/trailing punctuation, lowercase. -/
def normKeyOf (tok : List Char) : List Char :=
  lowerList (stripCore (leetConvert tok))

/-- Modelled from the spec: per-token transformation of the sanitize
pipeline (section 4.2), with the literal examples of section 8 and the
expected outputs of test_soap.c as the contract: the token is
leetspeak-converted character by character, its normalized key is looked up
in the table, a match is replaced by the replacement stored in the table between the
original leading/trailing punctuation, and a non-match passes through as
the leetspeak-converted token (the section 8 example sanitizes
Th1s 1s 4 l33tspeak s3nt3nc3. to This is a leetspeak sentence., so the
conversion reaches the output; per the same tests the matched replacement
is emitted exactly as stored, e.g. Rot-Brain becomes stupid).  Tokens with
an empty core (only punctuation) are never matched. -/
def processToken (table : List (List Char × List Char)) (tok : List Char) :
    List Char :=
  let lt := leetConvert tok
  let core := stripCore lt
  if core.isEmpty then lt
  else
    match tableLookup table (lowerList core) with
    | some rep => leadPunct lt ++ rep ++ trailPunct lt
    | none => lt

/-- Modelled from the spec: the sanitize pipeline walks the text, keeping
every whitespace character verbatim (separators are preserved) and handing
each maximal whitespace-free run to `processToken`; `acc` is the token
accumulated so far. -/
def soapAux (table : List (List Char × List Char)) (acc : List Char) :
    List Char → List Char
  | [] => if acc.isEmpty then [] else processToken table acc
  | c :: t =>
    if isWs c then
      (if acc.isEmpty then [] else processToken table acc) ++
        (c :: soapAux table [] t)
    else soapAux table (acc ++ [c]) t

/-- The full sanitize transformation on a character list. -/
def soapProcess (table : List (List Char × List Char)) (l : List Char) :
    List Char :=
  soapAux table [] l

/-- The whitespace-delimited tokens of a text, in order. -/
def tokensAux (acc : List Char) : List Char → List (List Char)
  | [] => if acc.isEmpty then [] else [acc]
  | c :: t =>
    if isWs c then (if acc.isEmpty then [] else [acc]) ++ tokensAux [] t
    else tokensAux (acc ++ [c]) t

def tokensOf (l : List Char) : List (List Char) := tokensAux [] l

/-- Modelled from the spec: the built-in ReplacementTable.  The exact
dictionary contents are an implementation choice (spec section 9) except
for the literal examples, which pin the entry rot-brain → stupid. -/
def builtinTable : List (List Char × List Char) :=
  [("rot-brain".data, "stupid".data)]

/-- Modelled from the spec: `sanitize(text)`, section 4.2. -/
def fossil_io_soap_sanitize (s : String) : String :=
  ⟨soapProcess builtinTable s.data⟩

/-- Modelled from the spec: `suggest(text)` applies the identical pipeline
to `sanitize` (section 4.2). -/
def fossil_io_soap_suggest (s : String) : String :=
  ⟨soapProcess builtinTable s.data⟩

lemma leetChar_id_of_ne {c : Char} (h0 : c ≠ '0') (h1 : c ≠ '1')
    (h3 : c ≠ '3') (h4 : c ≠ '4') : leetChar c = c := by
  unfold leetChar
  rw [if_neg h0, if_neg h1, if_neg h3, if_neg h4]

lemma leetChar_leetChar (c : Char) : leetChar (leetChar c) = leetChar c := by
  by_cases h0 : c = '0'
  · subst h0; decide
  by_cases h1 : c = '1'
  · subst h1; decide
  by_cases h3 : c = '3'
  · subst h3; decide
  by_cases h4 : c = '4'
  · subst h4; decide
  rw [leetChar_id_of_ne h0 h1 h3 h4, leetChar_id_of_ne h0 h1 h3 h4]

lemma isWs_leetChar (c : Char) : isWs (leetChar c) = isWs c := by
  by_cases h0 : c = '0'
  · subst h0; decide
  by_cases h1 : c = '1'
  · subst h1; decide
  by_cases h3 : c = '3'
  · subst h3; decide
  by_cases h4 : c = '4'
  · subst h4; decide
  rw [leetChar_id_of_ne h0 h1 h3 h4]

lemma leetConvert_leetConvert (t : List Char) :
    leetConvert (leetConvert t) = leetConvert t := by
  unfold leetConvert
  rw [List.map_map leetChar leetChar t]
  apply List.map_congr_left
  intro c _
  show leetChar (leetChar c) = leetChar c
  exact leetChar_leetChar c

lemma leetConvert_no_ws (t : List Char) (h : ∀ c ∈ t, isWs c = false) :
    ∀ c ∈ leetConvert t, isWs c = false := by
  intro c hc
  obtain ⟨a, ha, rfl⟩ := List.mem_map.mp hc
  rw [isWs_leetChar]
  exact h a ha

lemma normKeyOf_leetConvert (t : List Char) :
    normKeyOf (leetConvert t) = normKeyOf t := by
  unfold normKeyOf
  rw [leetConvert_leetConvert]

lemma processToken_unmatched (table : List (List Char × List Char))
    (tok : List Char) (h : tableLookup table (normKeyOf tok) = none) :
    processToken table tok = leetConvert tok := by
  unfold normKeyOf at h
  unfold processToken
  by_cases hc : (stripCore (leetConvert tok)).isEmpty
  · rw [if_pos hc]
  · rw [if_neg hc, h]

lemma dropWhile_head_false (p : Char → Bool) (l : List Char) :
    l.dropWhile p = [] ∨
      ∃ d t2, l.dropWhile p = d :: t2 ∧ p d = false := by
  induction l with
  | nil => left; rfl
  | cons c t ih =>
    rw [List.dropWhile_cons]
    by_cases h : p c
    · rw [if_pos h]
      exact ih
    · rw [if_neg h]
      right
      exact ⟨c, t, rfl, by simpa using h⟩

lemma soapProcess_nil (table : List (List Char × List Char)) :
    soapProcess table [] = [] := by
  simp [soapProcess, soapAux]

lemma soapAux_ws_cons (table : List (List Char × List Char)) (c : Char)
    (t : List Char) (h : isWs c = true) :
    soapAux table [] (c :: t) = c :: soapAux table [] t := by
  simp [soapAux, h]

lemma soapProcess_ws_peel (table : List (List Char × List Char))
    (w r : List Char) (h : ∀ c ∈ w, isWs c = true) :
    soapProcess table (w ++ r) = w ++ soapProcess table r := by
  induction w with
  | nil => rfl
  | cons c w2 ih =>
    show soapAux table [] (c :: (w2 ++ r)) = (c :: w2) ++ soapProcess table r
    rw [soapAux_ws_cons table c (w2 ++ r) (h c (by simp))]
    have := ih (fun d hd => h d (by simp [hd]))
    unfold soapProcess at this
    rw [this]
    rfl

lemma soapAux_token_go (table : List (List Char × List Char)) :
    ∀ (tok acc r : List Char), (∀ c ∈ tok, isWs c = false) →
    (r = [] ∨ ∃ d t2, r = d :: t2 ∧ isWs d = true) →
    (acc ++ tok) ≠ [] →
    soapAux table acc (tok ++ r)
      = processToken table (acc ++ tok) ++ soapProcess table r := by
  intro tok
  induction tok with
  | nil =>
    intro acc r _ hr hne
    rw [List.append_nil] at hne
    have hE : acc.isEmpty = false := by
      cases acc
      · exact absurd rfl hne
      · rfl
    rcases hr with rfl | ⟨d, t2, rfl, hd⟩
    · show soapAux table acc []
        = processToken table (acc ++ []) ++ soapProcess table []
      simp only [soapAux, hE, Bool.false_eq_true, if_false, List.append_nil,
        soapProcess_nil]
    · show soapAux table acc (d :: t2)
        = processToken table (acc ++ []) ++ soapProcess table (d :: t2)
      have hws : soapProcess table (d :: t2) = d :: soapAux table [] t2 := by
        unfold soapProcess
        exact soapAux_ws_cons table d t2 hd
      rw [hws, List.append_nil]
      simp only [soapAux, hd, if_true, hE, Bool.false_eq_true, if_false]
  | cons c tok2 ih =>
    intro acc r htok hr _
    have hc : isWs c = false := htok c (by simp)
    show soapAux table acc (c :: (tok2 ++ r))
      = processToken table (acc ++ c :: tok2) ++ soapProcess table r
    unfold soapAux
    rw [hc]
    simp only [Bool.false_eq_true, if_false]
    have := ih (acc ++ [c]) r (fun d hd => htok d (by simp [hd])) hr
      (by simp)
    rw [this]
    congr 2
    simp

lemma soapProcess_token_peel (table : List (List Char × List Char))
    (tok r : List Char) (hne : tok ≠ [])
    (htok : ∀ c ∈ tok, isWs c = false)
    (hr : r = [] ∨ ∃ d t2, r = d :: t2 ∧ isWs d = true) :
    soapProcess table (tok ++ r)
      = processToken table tok ++ soapProcess table r := by
  have := soapAux_token_go table tok [] r htok hr (by simpa using hne)
  rw [List.nil_append] at this
  exact this

lemma tokensOf_nil : tokensOf [] = [] := by
  simp [tokensOf, tokensAux]

lemma tokensAux_ws_cons (c : Char) (t : List Char) (h : isWs c = true) :
    tokensAux [] (c :: t) = tokensAux [] t := by
  simp [tokensAux, h]

lemma tokensOf_ws_peel (w r : List Char) (h : ∀ c ∈ w, isWs c = true) :
    tokensOf (w ++ r) = tokensOf r := by
  induction w with
  | nil => rfl
  | cons c w2 ih =>
    show tokensAux [] (c :: (w2 ++ r)) = tokensOf r
    rw [tokensAux_ws_cons c (w2 ++ r) (h c (by simp))]
    exact ih (fun d hd => h d (by simp [hd]))

lemma tokensAux_token_go :
    ∀ (tok acc r : List Char), (∀ c ∈ tok, isWs c = false) →
    (r = [] ∨ ∃ d t2, r = d :: t2 ∧ isWs d = true) →
    (acc ++ tok) ≠ [] →
    tokensAux acc (tok ++ r) = (acc ++ tok) :: tokensOf r := by
  intro tok
  induction tok with
  | nil =>
    intro acc r _ hr hne
    rw [List.append_nil] at hne
    have hE : acc.isEmpty = false := by
      cases acc
      · exact absurd rfl hne
      · rfl
    rcases hr with rfl | ⟨d, t2, rfl, hd⟩
    · show tokensAux acc [] = (acc ++ []) :: tokensOf []
      simp only [tokensAux, hE, Bool.false_eq_true, if_false, List.append_nil,
        tokensOf_nil]
    · show tokensAux acc (d :: t2) = (acc ++ []) :: tokensOf (d :: t2)
      have hws : tokensOf (d :: t2) = tokensAux [] t2 := by
        unfold tokensOf
        exact tokensAux_ws_cons d t2 hd
      rw [hws, List.append_nil]
      simp only [tokensAux, hd, if_true, hE, Bool.false_eq_true, if_false]
      rfl
  | cons c tok2 ih =>
    intro acc r htok hr _
    have hc : isWs c = false := htok c (by simp)
    show tokensAux acc (c :: (tok2 ++ r)) = (acc ++ c :: tok2) :: tokensOf r
    unfold tokensAux
    rw [hc]
    simp only [Bool.false_eq_true, if_false]
    have := ih (acc ++ [c]) r (fun d hd => htok d (by simp [hd])) hr (by simp)
    rw [this]
    congr 1
    simp

lemma tokensOf_token_peel (tok r : List Char) (hne : tok ≠ [])
    (htok : ∀ c ∈ tok, isWs c = false)
    (hr : r = [] ∨ ∃ d t2, r = d :: t2 ∧ isWs d = true) :
    tokensOf (tok ++ r) = tok :: tokensOf r := by
  have := tokensAux_token_go tok [] r htok hr (by simpa using hne)
  rw [List.nil_append] at this
  exact this

lemma dropWhile_length_le {α : Type} (p : α → Bool) (l : List α) :
    (l.dropWhile p).length ≤ l.length := by
  induction l with
  | nil => simp [List.dropWhile]
  | cons c t ih =>
    rw [List.dropWhile_cons]
    split
    · exact Nat.le_succ_of_le ih
    · exact Nat.le_refl _

lemma soap_idem_n (table : List (List Char × List Char)) :
    ∀ (n : Nat) (x : List Char), x.length ≤ n →
    (∀ tok ∈ tokensOf x, tableLookup table (normKeyOf tok) = none) →
    soapProcess table (soapProcess table x) = soapProcess table x := by
  intro n
  induction n with
  | zero =>
    intro x hx _
    have hnil : x = [] := List.eq_nil_of_length_eq_zero (by omega)
    subst hnil
    simp [soapProcess_nil]
  | succ n ih =>
    intro x hx hyp
    cases x with
    | nil => simp [soapProcess_nil]
    | cons c t =>
      by_cases hws : isWs c = true
      · have hsplit : (c :: t).takeWhile isWs ++ (c :: t).dropWhile isWs
            = c :: t := List.takeWhile_append_dropWhile isWs (c :: t)
        have hwall : ∀ d ∈ (c :: t).takeWhile isWs, isWs d = true :=
          fun d hd => List.mem_takeWhile_imp hd
        have hrlen : ((c :: t).dropWhile isWs).length ≤ n := by
          rw [List.dropWhile_cons, if_pos hws]
          have := dropWhile_length_le isWs t
          simp only [List.length_cons] at hx
          omega
        have htok_eq : tokensOf (c :: t) = tokensOf ((c :: t).dropWhile isWs) := by
          conv_lhs => rw [← hsplit]
          exact tokensOf_ws_peel _ _ hwall
        have hS : soapProcess table (c :: t)
            = (c :: t).takeWhile isWs ++
              soapProcess table ((c :: t).dropWhile isWs) := by
          conv_lhs => rw [← hsplit]
          exact soapProcess_ws_peel table _ _ hwall
        rw [hS, soapProcess_ws_peel table _ _ hwall,
          ih _ hrlen (by rw [htok_eq] at hyp; exact hyp)]
      · have hcf : isWs c = false := by simpa using hws
        have hsplit : (c :: t).takeWhile (fun d => ! isWs d) ++
            (c :: t).dropWhile (fun d => ! isWs d) = c :: t :=
          List.takeWhile_append_dropWhile _ (c :: t)
        have htokall : ∀ d ∈ (c :: t).takeWhile (fun d => ! isWs d),
            isWs d = false := by
          intro d hd
          have := List.mem_takeWhile_imp hd
          simpa using this
        have htokne : (c :: t).takeWhile (fun d => ! isWs d) ≠ [] := by
          rw [List.takeWhile_cons, if_pos (by simp [hcf])]
          simp
        have hrhead : (c :: t).dropWhile (fun d => ! isWs d) = [] ∨
            ∃ d t2, (c :: t).dropWhile (fun d => ! isWs d) = d :: t2 ∧
              isWs d = true := by
          rcases dropWhile_head_false (fun d => ! isWs d) (c :: t) with
            h | ⟨d, t2, heq, hd⟩
          · left; exact h
          · right; exact ⟨d, t2, heq, by simpa using hd⟩
        have hrlen : ((c :: t).dropWhile (fun d => ! isWs d)).length ≤ n := by
          rw [List.dropWhile_cons, if_pos (by simp [hcf])]
          have := dropWhile_length_le (fun d => ! isWs d) t
          simp only [List.length_cons] at hx
          omega
        have htoks : tokensOf (c :: t)
            = (c :: t).takeWhile (fun d => ! isWs d) ::
              tokensOf ((c :: t).dropWhile (fun d => ! isWs d)) := by
          conv_lhs => rw [← hsplit]
          exact tokensOf_token_peel _ _ htokne htokall hrhead
        have hunm : tableLookup table
            (normKeyOf ((c :: t).takeWhile (fun d => ! isWs d))) = none := by
          apply hyp
          rw [htoks]
          simp
        have hyp_r : ∀ tk ∈ tokensOf ((c :: t).dropWhile (fun d => ! isWs d)),
            tableLookup table (normKeyOf tk) = none := by
          intro tk htk
          apply hyp
          rw [htoks]
          simp [htk]
        have hS : soapProcess table (c :: t)
            = leetConvert ((c :: t).takeWhile (fun d => ! isWs d)) ++
              soapProcess table ((c :: t).dropWhile (fun d => ! isWs d)) := by
          conv_lhs => rw [← hsplit]
          rw [soapProcess_token_peel table _ _ htokne htokall hrhead,
            processToken_unmatched table _ hunm]
        rw [hS]
        have hltne : leetConvert ((c :: t).takeWhile (fun d => ! isWs d))
            ≠ [] := by
          intro hh
          apply htokne
          unfold leetConvert at hh
          exact List.map_eq_nil_iff.mp hh
        have hltall : ∀ d ∈ leetConvert ((c :: t).takeWhile (fun d => ! isWs d)),
            isWs d = false := leetConvert_no_ws _ htokall
        have hSr_head : soapProcess table ((c :: t).dropWhile (fun d => ! isWs d))
              = [] ∨
            ∃ d t2, soapProcess table ((c :: t).dropWhile (fun d => ! isWs d))
              = d :: t2 ∧ isWs d = true := by
          rcases hrhead with heq | ⟨d, t2, heq, hd⟩
          · left
            rw [heq]
            exact soapProcess_nil table
          · right
            refine ⟨d, soapAux table [] t2, ?_, hd⟩
            rw [heq]
            exact soapAux_ws_cons table d t2 hd
        rw [soapProcess_token_peel table _ _ hltne hltall hSr_head]
        rw [processToken_unmatched table _
          (by rw [normKeyOf_leetConvert]; exact hunm)]
        rw [leetConvert_leetConvert]
        rw [ih _ hrlen hyp_r]

/-- C6: `suggest` and `sanitize` are one identical transformation exposed
under two names: they agree on every input text. -/
theorem soap_suggest_eq_sanitize (s : String) :
    fossil_io_soap_suggest s = fossil_io_soap_sanitize s := rfl

/-- C8: the section 8 leetspeak example: both `sanitize` and `suggest`
rewrite the leetspeak digits to letters in the output, turning
Th1s 1s 4 l33tspeak s3nt3nc3. into This is a leetspeak sentence. even for
tokens that match no table entry. -/
theorem soap_leetspeak_example :
    fossil_io_soap_sanitize "Th1s 1s 4 l33tspeak s3nt3nc3."
        = "This is a leetspeak sentence." ∧
    fossil_io_soap_suggest "Th1s 1s 4 l33tspeak s3nt3nc3."
        = "This is a leetspeak sentence." :=
  ⟨by decide, by decide⟩

/-- C9: on any text none of whose whitespace-delimited tokens normalizes to
a key of the replacement table, `sanitize` is idempotent: sanitizing its own
output changes nothing. -/
theorem soap_sanitize_idempotent_on_clean (s : String)
    (hyp : ∀ tok ∈ tokensOf s.data,
      tableLookup builtinTable (normKeyOf tok) = none) :
    fossil_io_soap_sanitize (fossil_io_soap_sanitize s)
      = fossil_io_soap_sanitize s := by
  unfold fossil_io_soap_sanitize
  congr 1
  show soapProcess builtinTable (soapProcess builtinTable s.data)
    = soapProcess builtinTable s.data
  exact soap_idem_n builtinTable s.data.length s.data (le_refl _) hyp

/-- Concrete check of idempotence on a clean sentence. -/
theorem soap_sanitize_idempotent_on_clean_check :
    fossil_io_soap_sanitize (fossil_io_soap_sanitize "This is a clean sentence.")
      = fossil_io_soap_sanitize "This is a clean sentence." :=
  soap_sanitize_idempotent_on_clean "This is a clean sentence." (by decide)

/-- C7 (counterexample): on the literal example of the spec itself, the title-case
token Rot-Brain is replaced by the table replacement written exactly as
stored (lowercase stupid), not by a capitalized Stupid: the
capitalize-first-letter casing rule does not hold. -/
theorem soap_title_case_capitalization_cex :
    fossil_io_soap_sanitize "This Is A Rot-Brain Sentence."
        ≠ "This Is A Stupid Sentence." ∧
    fossil_io_soap_sanitize "This Is A Rot-Brain Sentence."
        = "This Is A stupid Sentence." :=
  ⟨by decide, by decide⟩

lemma isEmpty_false_of_ne_nil {l : List Char} (h : l ≠ []) :
    l.isEmpty = false := by
  cases l with
  | nil => exact absurd rfl h
  | cons a b => rfl

lemma dropWhile_last_ne_nil (q : Char → Bool) (c : Char) (hc : q c = false) :
    ∀ xs : List Char, (xs ++ [c]).dropWhile q ≠ [] := by
  intro xs
  induction xs with
  | nil =>
    rw [List.nil_append, List.dropWhile_cons, if_neg (by simp [hc])]
    simp
  | cons a xs2 ih =>
    rw [List.cons_append, List.dropWhile_cons]
    by_cases h : q a
    · rw [if_pos (by simp [h])]
      exact ih
    · rw [if_neg (by simp [h])]
      simp

lemma stripCore_cons_ne_nil (c : Char) (l2 : List Char)
    (hc : isWordChar c = true) : stripCore (c :: l2) ≠ [] := by
  unfold stripCore
  rw [List.dropWhile_cons, if_neg (by simp [hc])]
  intro h
  apply dropWhile_last_ne_nil (fun d => ! isWordChar d) c (by simp [hc])
    l2.reverse
  have hrev : (c :: l2).reverse = l2.reverse ++ [c] := by simp
  rw [← hrev]
  simpa using congrArg List.reverse h

lemma leetChar_of_upper {c : Char} (hup : asciiIsUpper c = true) :
    leetChar c = c := by
  have h0 : c ≠ '0' := by intro h; subst h; exact absurd hup (by decide)
  have h1 : c ≠ '1' := by intro h; subst h; exact absurd hup (by decide)
  have h3 : c ≠ '3' := by intro h; subst h; exact absurd hup (by decide)
  have h4 : c ≠ '4' := by intro h; subst h; exact absurd hup (by decide)
  exact leetChar_id_of_ne h0 h1 h3 h4

lemma isWordChar_of_upper {c : Char} (hup : asciiIsUpper c = true) :
    isWordChar c = true := by
  unfold asciiIsUpper at hup
  unfold isWordChar
  exact decide_eq_true (Or.inr (Or.inl (of_decide_eq_true hup)))

/-- C7 (amended): for every matched token whose original form begins with an
uppercase letter and is not entirely uppercase (it contains a lowercase
letter), `sanitize` emits the table replacement exactly as stored between
the leading and trailing punctuation of the token — the replacement does not
inherit the capitalize-first-letter pattern of the token. -/
theorem soap_title_case_replacement_verbatim
    (table : List (List Char × List Char)) (c : Char) (rest rep : List Char)
    (hup : asciiIsUpper c = true)
    (_hmix : (c :: rest).any (fun d => decide ('a' ≤ d ∧ d ≤ 'z')) = true)
    (hrep : tableLookup table (normKeyOf (c :: rest)) = some rep) :
    processToken table (c :: rest)
      = leadPunct (leetConvert (c :: rest)) ++ rep ++
        trailPunct (leetConvert (c :: rest)) := by
  have hlt : leetConvert (c :: rest) = c :: leetConvert rest := by
    unfold leetConvert
    rw [List.map_cons, leetChar_of_upper hup]
  have hcore_ne : stripCore (leetConvert (c :: rest)) ≠ [] := by
    rw [hlt]
    exact stripCore_cons_ne_nil c (leetConvert rest) (isWordChar_of_upper hup)
  unfold normKeyOf at hrep
  unfold processToken
  rw [if_neg (by rw [isEmpty_false_of_ne_nil hcore_ne]; simp)]
  rw [hrep]

/-- Concrete check of the amended casing behavior at the mixed-case token of
the test suite. -/
theorem soap_title_case_replacement_verbatim_check :
    processToken builtinTable ("Rot-Brain".data)
      = leadPunct (leetConvert ("Rot-Brain".data)) ++ "stupid".data ++
        trailPunct (leetConvert ("Rot-Brain".data)) :=
  soap_title_case_replacement_verbatim builtinTable 'R' ("ot-Brain".data)
    ("stupid".data) (by decide) (by decide) (by decide)

/-- C strncpy as called by fossil_io_validate_sanitize_string: exactly `n`
bytes are written to the destination — the source bytes up to `n`,
zero-padded past the end of the source; when the source holds at least `n` bytes
no null terminator is written.  The source list models the bytes of the C string
before its terminator (so it contains no zero byte). -/
def strncpyBytes (src : List Nat) (n : Nat) : List Nat :=
  src.take n ++ List.replicate (n - src.length) 0

/-- Translated from src/code/logic/input.c (fossil_io_validate_sanitize_string):
return 0 on a null input, null output or zero output_size; otherwise
strncpy the input into the output bounded by output_size and return 1.
The result pairs the return code with the new contents of the output buffer. -/
def fossil_io_validate_sanitize_string (input : Option (List Nat))
    (output : Option (List Nat)) (output_size : Nat) : Nat × List Nat :=
  match input, output with
  | some inp, some out =>
    if output_size = 0 then (0, out)
    else (1, strncpyBytes inp output_size ++ out.drop output_size)
  | _, out => (0, out.getD [])

/-- C10: for every non-null input, non-null output and positive output_size,
fossil_io_validate_sanitize_string reports success (1) and merely copies the
input into the output with strncpy bounded by output_size — no character is
filtered; in particular when the input is at least output_size bytes long
the written region is the silently truncated input and contains no null
terminator. -/
theorem validate_sanitize_string_copies (inp out : List Nat) (osz : Nat)
    (hosz : 0 < osz) (hcstr : ∀ b ∈ inp, b ≠ 0) :
    (fossil_io_validate_sanitize_string (some inp) (some out) osz).1 = 1 ∧
    (fossil_io_validate_sanitize_string (some inp) (some out) osz).2
      = strncpyBytes inp osz ++ out.drop osz ∧
    (osz ≤ inp.length →
      (fossil_io_validate_sanitize_string (some inp) (some out) osz).2.take osz
        = inp.take osz ∧
      ∀ b ∈ (fossil_io_validate_sanitize_string
          (some inp) (some out) osz).2.take osz, b ≠ 0) := by
  have hres : fossil_io_validate_sanitize_string (some inp) (some out) osz
      = (1, strncpyBytes inp osz ++ out.drop osz) := by
    unfold fossil_io_validate_sanitize_string
    dsimp only
    rw [if_neg (by omega)]
  rw [hres]
  refine ⟨rfl, rfl, ?_⟩
  intro hlen
  have hsn : strncpyBytes inp osz = inp.take osz := by
    unfold strncpyBytes
    have hz : osz - inp.length = 0 := by omega
    rw [hz]
    simp
  have hAlen : (inp.take osz).length = osz := by
    simp [Nat.min_eq_left hlen]
  have htake : ((strncpyBytes inp osz ++ out.drop osz).take osz : List Nat)
      = inp.take osz := by
    rw [hsn]
    exact List.take_left' hAlen
  constructor
  · exact htake
  · intro b hb
    rw [htake] at hb
    exact hcstr b (List.take_subset osz inp hb)

/-- Concrete check: a 3-byte input into a 2-byte window is truncated to its
first 2 bytes with success still reported. -/
theorem validate_sanitize_string_copies_check :
    (fossil_io_validate_sanitize_string (some [65, 66, 67])
        (some [0, 0, 0, 0]) 2).1 = 1 ∧
    (fossil_io_validate_sanitize_string (some [65, 66, 67])
        (some [0, 0, 0, 0]) 2).2
      = strncpyBytes [65, 66, 67] 2 ++ ([0, 0, 0, 0] : List Nat).drop 2 ∧
    (2 ≤ ([65, 66, 67] : List Nat).length →
      ((fossil_io_validate_sanitize_string (some [65, 66, 67])
          (some [0, 0, 0, 0]) 2).2.take 2 : List Nat)
        = ([65, 66, 67] : List Nat).take 2 ∧
      ∀ b ∈ ((fossil_io_validate_sanitize_string (some [65, 66, 67])
          (some [0, 0, 0, 0]) 2).2.take 2 : List Nat), b ≠ 0) :=
  validate_sanitize_string_copies [65, 66, 67] [0, 0, 0, 0] 2
    (by decide) (by decide)

end FossilIO
